import Mathlib

/-!
Bytom: the aihash proof-of-work primitives (consensus/aihash/algorithm.go).

A shallow embedding of `createSeed`, `generateCache`, `fillMatrixList`,
`mulMatrix`, `hashMatrix` and the `primes` table, and of `UpdateTags` of the
asset registry (blockchain/asset/asset.go), together with the properties the
specification states about them.

Conventions of the embedding.

* A Go slice is the list of its elements. An index expression and the low
  bound of `s[lo:]` are checked against the length; the high bound of
  `s[lo:hi]` and `s[:hi]` is checked against the capacity, and such an
  expression can reach the elements of the backing array that lie between
  the length and the capacity. Where the code takes such an expression of a
  slice it was handed (the cache), these elements are a second list, `spare`;
  a slice that `make` built has none.
* A run-time panic of the Go code is an `Except.error`; a normal return is
  `Except.ok`. An error carries no state: what a caller that recovers from a
  panic would find in a slice the code was writing is outside the embedding.
* Go `int` values that are sizes or counts (`matSize`, `matNum`,
  `epochLength`, `mulRounds`) are natural numbers, in the range where 64-bit
  arithmetic does not wrap. `uint64` and `uint8` arithmetic that can wrap is
  written with an explicit modulus.
* `[]byte` holds naturals below 256, `[]int8` integers from -128 to 127,
  `[]uint32` naturals below 2^32.
* Pointer arguments (`*bc.Hash`, `*matrix.Matrix`) are taken to be non-nil
  and are passed as values.
* SHA-3 (golang.org/x/crypto/sha3) is a library outside the repository: the
  digest function is a parameter.
-/

namespace Aihash

/-! ## Go run-time behaviour -/

deriving instance DecidableEq for Except

/-- Run-time panics of the embedded code, named after the place that raises them. -/
inductive Panic where
  | divideByZero
  | primeIndexOutOfRange
  | indexOutOfRange
  | sliceBoundsOutOfRange
  | nilDereference
  | dimensionMismatch
  | interfaceConversion
  deriving DecidableEq, Repr

/-- Index expression `xs[i]`: panics when `i` is not below `len(xs)`. -/
def index {α : Type} (xs : List α) (i : Nat) : Except Panic α :=
  match xs[i]? with
  | some x => .ok x
  | none => .error .indexOutOfRange

/-- Assignment `xs[i] = v`: panics when `i` is not below `len(xs)`. -/
def setIndex {α : Type} (xs : List α) (i : Nat) (v : α) : Except Panic (List α) :=
  if i < xs.length then .ok (xs.set i v) else .error .indexOutOfRange

/-- Slice expression `xs[lo:hi]` of a slice with elements `xs` and spare
capacity `spare`: the bound of `hi` is `cap(xs)`, the length of both lists. -/
def slice {α : Type} (xs spare : List α) (lo hi : Nat) : Except Panic (List α) :=
  if lo ≤ hi ∧ hi ≤ xs.length + spare.length then .ok (((xs ++ spare).take hi).drop lo)
  else .error .sliceBoundsOutOfRange

/-- Slice expression `xs[lo:]`: the high bound is `len(xs)`, and so is the
bound of `lo`. -/
def sliceFrom {α : Type} (xs : List α) (lo : Nat) : Except Panic (List α) :=
  if lo ≤ xs.length then .ok (xs.drop lo) else .error .sliceBoundsOutOfRange

/-- Slice expression `xs[:hi]` of a slice with elements `xs` and spare
capacity `spare`: the bound of `hi` is `cap(xs)`, the length of both lists. -/
def sliceTo {α : Type} (xs spare : List α) (hi : Nat) : Except Panic (List α) :=
  if hi ≤ xs.length + spare.length then .ok ((xs ++ spare).take hi)
  else .error .sliceBoundsOutOfRange

/-- Builtin `copy(dst, src)`: the contents of `dst` afterwards; the first
`min(len(dst), len(src))` elements are overwritten. -/
def copy {α : Type} (dst src : List α) : List α :=
  src.take dst.length ++ dst.drop src.length

/-- Conversion `int8(b)` of a byte: the same eight bits read as two's complement. -/
def int8 (b : Nat) : Int :=
  if b % 256 < 128 then ((b % 256 : Nat) : Int) else ((b % 256 : Nat) : Int) - 256

/-- Conversion `byte(v)` of an int8 (any integer): the low eight bits. -/
def byte (v : Int) : Nat := (v % 256).toNat

/-- The four bytes of a uint32 as the reinterpreted `[]int8` header sees them
on a little-endian host. -/
def wordInt8 (w : Nat) : List Int :=
  [int8 w, int8 (w / 256), int8 (w / 65536), int8 (w / 16777216)]

/-- The `cacheInt8` view of `fillMatrixList`: the slice header of `cache`
with `Len` and `Cap` multiplied by four, read as `[]int8`. Applied to the
words of `cache` it gives the `Len` bytes of the view, applied to the spare
words of its backing array the bytes between `Len` and `Cap`. -/
def cacheInt8 (cache : List Nat) : List Int :=
  match cache with
  | [] => []
  | w :: ws => wordInt8 w ++ cacheInt8 ws

/-! ## Package matrix -/

namespace matrix

/-- Modelled from the spec: package consensus/aihash/matrix is not among the
sources. A matrix is a grid of int8 entries of the stated size over backing
elements in row-major order. -/
structure Matrix where
  rows : Nat
  cols : Nat
  elements : List Int
  deriving DecidableEq, Repr

/-- Modelled from the spec: `matrix.New(rows, cols, elements)` builds the
matrix row-major from its backing bytes. -/
def New (rows cols : Nat) (elements : List Int) : Matrix :=
  { rows := rows, cols := cols, elements := elements }

/-- Modelled from the spec: `matrix.Zeros(rows, cols)` is the all-zero matrix. -/
def Zeros (rows cols : Nat) : Matrix :=
  { rows := rows, cols := cols, elements := List.replicate (rows * cols) 0 }

/-- Modelled from the spec: `m.Get(i, j)` with `i`, `j` counted from 1;
an access outside `1..rows`, `1..cols` fails. -/
def Get (m : Matrix) (i j : Nat) : Except Panic Int :=
  if 1 ≤ i ∧ i ≤ m.rows ∧ 1 ≤ j ∧ j ≤ m.cols then
    index m.elements ((i - 1) * m.cols + (j - 1))
  else .error .indexOutOfRange

/-- Modelled from the spec: `matrix.Multiply(a, b)` is the standard matrix
product, defined when `a.cols == b.rows`; each entry is narrowed to int8 by
two's-complement wrapping (the rule the specification suggests and leaves
to the implementer). -/
def Multiply (a b : Matrix) : Except Panic Matrix :=
  if a.cols ≠ b.rows then .error .dimensionMismatch
  else .ok {
    rows := a.rows
    cols := b.cols
    elements := (List.range a.rows).flatMap fun i =>
      (List.range b.cols).map fun j =>
        int8 (byte ((List.range a.cols).foldl
          (fun acc k => acc + a.elements.getD (i * a.cols + k) 0 *
            b.elements.getD (k * b.cols + j) 0) 0)) }

end matrix

open matrix (Matrix)

/-! ## The prime table -/

/-- The package-level table `primes`. -/
def primes : List Nat := [
  3, 5, 7, 11, 13, 17, 19, 23,
  29, 31, 37, 41, 43, 47, 53, 59,
  61, 67, 71, 73, 79, 83, 89, 97,
  101, 103, 107, 109, 113, 127, 131, 137,
  139, 149, 151, 157, 163, 167, 173, 179,
  181, 191, 193, 197, 199, 211, 223, 227,
  229, 233, 239, 241, 251, 257, 263, 269,
  271, 277, 281, 283, 293, 307, 311, 313,
  317, 331, 337, 347, 349, 353, 359, 367,
  373, 379, 383, 389, 397, 401, 409, 419,
  421, 431, 433, 439, 443, 449, 457, 461,
  463, 467, 479, 487, 491, 499, 503, 509,
  521, 523, 541, 547, 557, 563, 569, 571,
  577, 587, 593, 599, 601, 607, 613, 617,
  619, 631, 641, 643, 647, 653, 659, 661,
  673, 677, 683, 691, 701, 709, 719, 727]

/-- The expression `primes[primeIndex]`. -/
def primeAt (primeIndex : Nat) : Except Panic Nat :=
  match primes[primeIndex]? with
  | some p => .ok p
  | none => .error .primeIndexOutOfRange

/-! ## fillMatrixList -/

/-- The value `(height - 1) % uint64(epochLength)` for a non-zero
`epochLength`; the subtraction is uint64 subtraction and wraps at height 0
(18446744073709551616 is 2^64). -/
def primeIndex (height epochLength : Nat) : Nat :=
  ((height + 18446744073709551615) % 18446744073709551616) % epochLength

/-- The expression `(matSize*matSize*i + p) % cacheLength`, shared by
`startIndex` (at `i`) and `endIndex` (at `i+1`). -/
def windowIndex (matSize cacheLength p i : Nat) : Nat :=
  (matSize * matSize * i + p) % cacheLength

/-- Body of the loop of `fillMatrixList` up to the assignment: the matrix
built for index `i`. `cacheInt8` holds the bytes of the view up to its
length, `spareInt8` the bytes from its length to its capacity. -/
def fillMatrix (matSize cacheLength : Nat) (cacheInt8 spareInt8 : List Int)
    (primeIndex i : Nat) :
    Except Panic Matrix := do
  let p ← primeAt primeIndex
  if cacheLength = 0 then throw Panic.divideByZero
  let startIndex := windowIndex matSize cacheLength p i
  let endIndex := windowIndex matSize cacheLength p (i + 1)
  if startIndex < endIndex then
    let window ← slice cacheInt8 spareInt8 startIndex endIndex
    pure (matrix.New matSize matSize window)
  else
    let matrixData : List Int := List.replicate (matSize * matSize) 0
    let tail ← sliceFrom cacheInt8 startIndex
    let matrixData := copy matrixData tail
    let dst ← sliceFrom matrixData (cacheLength - startIndex)
    let head ← sliceTo cacheInt8 spareInt8 (endIndex + 1)
    let matrixData := matrixData.take (cacheLength - startIndex) ++ copy dst head
    pure (matrix.New matSize matSize matrixData)

/-- The loop `for i := 0; i < matNum; i++` of `fillMatrixList`, entered at
index `i` with `todo` iterations left. -/
def fillLoop (matSize cacheLength : Nat) (cacheInt8 spareInt8 : List Int) (primeIndex : Nat) :
    Nat → Nat → List Matrix → Except Panic (List Matrix)
  | 0, _, matList => .ok matList
  | todo + 1, i, matList => do
    let m ← fillMatrix matSize cacheLength cacheInt8 spareInt8 primeIndex i
    let matList ← setIndex matList i m
    fillLoop matSize cacheLength cacheInt8 spareInt8 primeIndex todo (i + 1) matList

/-- The function `fillMatrixList`; the result is the content of `matList`
when the function returns. `cache` holds the `len(cache)` words of the
argument, `spare` the words of its backing array from `len(cache)` to
`cap(cache)` (none for a cache that `make` built at its length). -/
def fillMatrixList (matList : List Matrix) (matSize matNum epochLength : Nat)
    (cache spare : List Nat) (height : Nat) : Except Panic (List Matrix) := do
  if epochLength = 0 then throw Panic.divideByZero
  let primeIndex := primeIndex height epochLength
  let spareInt8 := cacheInt8 spare
  let cacheInt8 := cacheInt8 cache
  let cacheLength := matSize * matSize * matNum
  fillLoop matSize cacheLength cacheInt8 spareInt8 primeIndex matNum 0 matList

/-! ## mulMatrix -/

/-- Conversion `uint8(n)`: the low eight bits. -/
def uint8 (n : Nat) : Nat := n % 256

/-- Remainder `a % b` of unsigned integers: panics when `b` is zero. -/
def rem (a b : Nat) : Except Panic Nat :=
  if b = 0 then .error .divideByZero else .ok (a % b)

/-- One iteration of the loop of `mulMatrix`: from `mb` to the new `(ma, mb)`.
`Multiply` stands for `*matrix.Multiply(a, b)`, a function of the matrix
package, with its failures (dimension mismatch, nil result) as errors. -/
def mulRound (Multiply : Matrix → Matrix → Except Panic Matrix) (matList : List Matrix)
    (matNum : Nat) (matIndex : List Nat) (i : Nat) (mb : Matrix) :
    Except Panic (Matrix × Matrix) := do
  let b0 ← index matIndex (2 * i)
  let idx ← rem (uint8 b0) (uint8 matNum)
  let a ← index matList idx
  let ma ← Multiply a mb
  let b1 ← index matIndex (2 * i + 1)
  let idx ← rem (uint8 b1) (uint8 matNum)
  let b ← index matList idx
  let mb ← Multiply ma b
  pure (ma, mb)

/-- The loop `for i := 0; i < mulRounds; i++` of `mulMatrix`, entered at
index `i` with `todo` iterations left and the current `ma`, `mb`. -/
def mulLoop (Multiply : Matrix → Matrix → Except Panic Matrix) (matList : List Matrix)
    (matNum : Nat) (matIndex : List Nat) : Nat → Nat → Matrix → Matrix → Except Panic Matrix
  | 0, _, _, mb => .ok mb
  | todo + 1, i, _, mb => do
    let (ma, mb) ← mulRound Multiply matList matNum matIndex i mb
    mulLoop Multiply matList matNum matIndex todo (i + 1) ma mb

/-- The function `mulMatrix`. -/
def mulMatrix (Multiply : Matrix → Matrix → Except Panic Matrix) (matList : List Matrix)
    (matSize matNum mulRounds : Nat) (matIndex : List Nat) : Except Panic Matrix := do
  let ma := matrix.Zeros matSize matSize
  let mb ← index matList 0
  mulLoop Multiply matList matNum matIndex mulRounds 0 ma mb

/-- The multiplication chain in the words of the specification:
`mb_0 = matList[0]` and `mb_(r+1) = Multiply(Multiply(matList[matIndex[2r] mod
matNum], mb_r), matList[matIndex[2r+1] mod matNum])`, for `matNum >= 1`. -/
def specChain (Multiply : Matrix → Matrix → Except Panic Matrix) (matList : List Matrix)
    (matNum : Nat) (matIndex : List Nat) : Nat → Except Panic Matrix
  | 0 => index matList 0
  | r + 1 => do
    let mb ← specChain Multiply matList matNum matIndex r
    let b0 ← index matIndex (2 * r)
    let a ← index matList (b0 % matNum)
    let ma ← Multiply a mb
    let b1 ← index matIndex (2 * r + 1)
    let b ← index matList (b1 % matNum)
    Multiply ma b

/-! ## Package bc and the hashers -/

namespace bc

/-- Modelled from the spec: package protocol/bc is not among the sources.
A hash is a digest, kept as its bytes. -/
structure Hash where
  bytes : List Nat
  deriving DecidableEq, Repr

/-- Modelled from the spec: `bc.NewHash(b)` wraps the 32 bytes of a digest. -/
def NewHash (b : List Nat) : Hash := { bytes := b }

/-- Modelled from the spec: `h.Bytes()` is the bytes of the hash. -/
def Hash.Bytes (h : Hash) : List Nat := h.bytes

end bc

/-- The closure returned by `makeHasher(h)`, as the content of `dest` after
the call: `h.Write(data); h.Sum(dest[:0]); h.Reset()`. `Sum` appends the
digest to the empty slice `dest[:0]`; it lands in the array of `dest` when
that has room for it, and in a fresh array (leaving `dest` alone) otherwise.
Here `dest` is a slice without spare capacity, as the `seed` that
`createSeed` makes. The argument `h` is the digest function of the hash. -/
def makeHasher (h : List Nat → List Nat) (dest data : List Nat) : List Nat :=
  if (h data).length ≤ dest.length then h data ++ dest.drop (h data).length else dest

/-- The function `createSeed`; `sum256` is the digest function of `sha3.New256()`. -/
def createSeed (sum256 : List Nat → List Nat) (preSeed : bc.Hash) (blockHashs : List bc.Hash) :
    List Nat :=
  let seed : List Nat := List.replicate 32 0
  let seedSlice := blockHashs.foldl (fun seedSlice blockHash => seedSlice ++ blockHash.Bytes)
    preSeed.Bytes
  makeHasher sum256 seed seedSlice

/-! ## hashMatrix -/

/-- The inner loop `for j := 1; j <= matSize; j++` of `hashMatrix` for row
`i`, entered at column `j` with `todo` iterations left. -/
def hashRow (m : Matrix) (i : Nat) : Nat → Nat → List Nat → Except Panic (List Nat)
  | 0, _, item => .ok item
  | todo + 1, j, item => do
    let v ← matrix.Get m i j
    hashRow m i todo (j + 1) (item ++ [byte v])

/-- The outer loop `for i := 1; i <= matSize; i++` of `hashMatrix`, entered
at row `i` with `todo` iterations left. -/
def hashRows (m : Matrix) (matSize : Nat) : Nat → Nat → List Nat → Except Panic (List Nat)
  | 0, _, item => .ok item
  | todo + 1, i, item => do
    let item ← hashRow m i matSize 1 item
    hashRows m matSize todo (i + 1) item

/-- The byte sequence `item` that `hashMatrix` passes to `sha3.Sum256`. -/
def hashItem (m : Matrix) (matSize : Nat) : Except Panic (List Nat) :=
  hashRows m matSize matSize 1 []

/-- The function `hashMatrix`; `sum256` is `sha3.Sum256`. -/
def hashMatrix (sum256 : List Nat → List Nat) (m : Matrix) (matSize : Nat) :
    Except Panic bc.Hash := do
  let item ← hashItem m matSize
  pure (bc.NewHash (sum256 item))

/-! ## generateCache -/

/-- The identifiers that the live body of `generateCache` uses without
declaring them (it is the body of `Key` of an scrypt package): the scrypt
parameters, and the functions `pbkdf2.Key` (with `sha256.New` fixed) and
`smix`. `smix b r N v xy` gives the contents of `b`, `v`, `xy` after the call. -/
structure ScryptNames where
  N : Nat
  r : Nat
  p : Nat
  keyLen : Nat
  maxInt : Nat
  password : List Nat
  salt : List Nat
  pbkdf2Key : List Nat → List Nat → Nat → Nat → List Nat
  smix : List Nat → Nat → Nat → List Nat → List Nat → List Nat × List Nat × List Nat

/-- Quotient `a / b` of integers: panics when `b` is zero. -/
def quo (a b : Nat) : Except Panic Nat :=
  if b = 0 then .error .divideByZero else .ok (a / b)

/-- The values a `return` of the live body of `generateCache` names. -/
inductive KeyResult where
  | err (msg : String)
  | key (k : List Nat)
  deriving DecidableEq, Repr

/-- The loop `for i := 0; i < p; i++ { smix(b[i*128*r:], r, N, v, xy) }`. -/
def smixLoop (s : ScryptNames) :
    Nat → Nat → List Nat × List Nat × List Nat → Except Panic (List Nat × List Nat × List Nat)
  | 0, _, st => .ok st
  | todo + 1, i, (b, v, xy) => do
    let tail ← sliceFrom b (i * 128 * s.r)
    let (tail, v, xy) := s.smix tail s.r s.N v xy
    smixLoop s todo (i + 1) (b.take (i * 128 * s.r) ++ tail, v, xy)

/-- What the live body of `generateCache` evaluates, `dest` and `seed` aside:
neither parameter occurs in it. -/
def generateCacheBody (s : ScryptNames) : Except Panic KeyResult := do
  if s.N ≤ 1 ∨ s.N &&& (s.N - 1) ≠ 0 then
    return KeyResult.err "scrypt: N must be > 1 and a power of 2"
  let q1 ← quo (s.maxInt / 128) s.p
  let c2 := decide (s.r % 18446744073709551616 * (s.p % 18446744073709551616) %
    18446744073709551616 ≥ 1073741824) || decide (s.r > q1)
    || decide (s.r > s.maxInt / 256)
  let q2 ← if c2 then pure 0 else quo (s.maxInt / 128) s.r
  if c2 ∨ s.N > q2 then
    return KeyResult.err "scrypt: parameters are too large"
  let xy : List Nat := List.replicate (64 * s.r) 0
  let v : List Nat := List.replicate (32 * s.N * s.r) 0
  let b := s.pbkdf2Key s.password s.salt 1 (s.p * 128 * s.r)
  let (b, _, _) ← smixLoop s s.p 0 (b, v, xy)
  return KeyResult.key (s.pbkdf2Key s.password b 1 s.keyLen)

/-- The live function `generateCache(dest, seed)`: the content of `dest`
when the call ends, and how the body ends. No statement of the body assigns
to `dest` or to an element of it, so `dest` is handed back as it came. -/
def generateCache (s : ScryptNames) (dest : List Nat) (_seed : List Nat) :
    List Nat × Except Panic KeyResult :=
  (dest, generateCacheBody s)

/-! ## Primality by trial division -/

/-- Whether `n` has a divisor `d` with `2 ≤ d < bound`. -/
def hasDivisorBelow (n : Nat) : Nat → Bool
  | 0 => false
  | d + 1 => (decide (2 ≤ d) && n % d == 0) || hasDivisorBelow n d

/-- Trial division by 2..27: decides primality of every `n < 784`. -/
def smallPrime (n : Nat) : Bool :=
  decide (2 ≤ n) && !hasDivisorBelow n (min n 28)

/-! ## Package asset: the registry and UpdateTags (blockchain/asset/asset.go) -/

namespace lru

/-- The cache of github.com/golang/groupcache/lru, a library outside the
repository: entries from most to least recently used, at most `MaxEntries`
of them when `MaxEntries` is not zero. -/
structure Cache (κ ν : Type) where
  MaxEntries : Nat
  entries : List (κ × ν)
  deriving DecidableEq, Repr

/-- The constructor `lru.New(maxEntries)`. -/
def New {κ ν : Type} (maxEntries : Nat) : Cache κ ν :=
  { MaxEntries := maxEntries, entries := [] }

/-- The method `c.Add(key, value)`: a present key gets the value and moves
to the front; a new key is put in front, and the oldest entry is removed
when the cache is over `MaxEntries`. -/
def Cache.Add {κ ν : Type} [DecidableEq κ] (c : Cache κ ν) (key : κ) (value : ν) : Cache κ ν :=
  if c.entries.any (fun e => decide (e.1 = key)) then
    { c with entries := (key, value) :: c.entries.filter (fun e => !decide (e.1 = key)) }
  else if c.MaxEntries ≠ 0 ∧ c.MaxEntries < c.entries.length + 1 then
    { c with entries := ((key, value) :: c.entries).dropLast }
  else
    { c with entries := (key, value) :: c.entries }

/-- The method `c.Get(key)`: the value and `ok`, and the cache afterwards (a
hit moves the entry to the front). -/
def Cache.Get {κ ν : Type} [DecidableEq κ] (c : Cache κ ν) (key : κ) : Option ν × Cache κ ν :=
  match c.entries.find? (fun e => decide (e.1 = key)) with
  | some e =>
    (some e.2,
      { c with entries := e :: c.entries.filter (fun e => !decide (e.1 = key)) })
  | none => (none, c)

end lru

namespace asset

/-- The type `bc.AssetID`, by a number standing for its 32 bytes. -/
abbrev AssetID := Nat

/-- The type `map[string]interface{}` of tags, as a list of pairs. -/
abbrev Tags := List (String × String)

/-- The struct `Asset`; the embedded signer, the initial block hash and the
definition map, which `UpdateTags` and the lookups never touch, are kept as
one field `Rest`. -/
structure Asset where
  AssetID : AssetID
  Alias : Option String
  VMVersion : Nat
  IssuanceProgram : List Nat
  Tags : Tags
  RawDefinitionByte : List Nat
  Rest : String
  deriving DecidableEq, Repr

/-- The functions of other packages that the registry calls:
`AssetID.UnmarshalText`, `AssetID.String` (the field `IDString`) and `json.Unmarshal` into an `Asset`
(`none` is a returned error). -/
structure Codec where
  UnmarshalText : String → Option AssetID
  IDString : AssetID → String
  Unmarshal : String → Option Asset

/-- The struct `Registry`, without the chain and the locks: the key-value
store `db`, and the two caches. `cache` holds `*Asset` pointers: a pointer is
an index into `heap`, the assets allocated so far. -/
structure Registry where
  db : List (String × String)
  heap : List Asset
  cache : lru.Cache AssetID Nat
  aliasCache : lru.Cache String AssetID
  deriving DecidableEq, Repr

/-- The constant `assetPreFix`. -/
def assetPreFix : String := "ASS:"

/-- The function `Key`: the store key of an asset id. -/
def Key (c : Codec) (id : AssetID) : String := ( assetPreFix ++ c.IDString id)

/-- The call `reg.db.Get(key)`: `none` is the nil slice of an absent key. -/
def dbGet (db : List (String × String)) (key : String) : Option String :=
  (db.find? (fun e => decide (e.1 = key))).map (fun e => e.2)

/-- The method `findByID`: the registry afterwards, and the `*Asset` pointer
or the error. -/
def Registry.findByID (c : Codec) (reg : Registry) (id : AssetID) :
    Registry × Except String Nat :=
  match reg.cache.Get id with
  | (some cached, cache) => ({ reg with cache := cache }, .ok cached)
  | (none, cache) =>
    let reg := { reg with cache := cache }
    match dbGet reg.db (Key c id) with
    | none => (reg, .error "no exit this asset")
    | some bytes =>
      match c.Unmarshal bytes with
      | none => (reg, .error "err:unmarshal,asset signer id")
      | some asset =>
        let ptr := reg.heap.length
        ({ reg with heap := reg.heap ++ [asset], cache := reg.cache.Add id ptr }, .ok ptr)

/-- The method `FindByAlias`. On a miss of the alias cache the single-flight
callback returns `(nil, nil)`, and the type assertion `untypedAsset.(*Asset)`
on the nil interface panics. -/
def Registry.FindByAlias (c : Codec) (reg : Registry) (alias_ : String) :
    Except Panic (Registry × Except String Nat) :=
  match reg.aliasCache.Get alias_ with
  | (some cachedID, aliasCache) =>
    .ok (Registry.findByID c { reg with aliasCache := aliasCache } cachedID)
  | (none, _) => .error .interfaceConversion

/-- The assignment `asset.Tags = tags` through the pointer `ptr`. -/
def setTags (heap : List Asset) (ptr : Nat) (tags : Tags) : List Asset :=
  match heap[ptr]? with
  | some asset => heap.set ptr { asset with Tags := tags }
  | none => heap

/-- The method `UpdateTags(ctx, id, alias, tags)`: the registry afterwards and
the returned error (`none` is nil). In the branch for `id == nil` the
statement `return nil` comes first; the call of `FindByAlias` after it is
never reached. -/
def Registry.UpdateTags (c : Codec) (reg : Registry) (id alias_ : Option String) (tags : Tags) :
    Registry × Option String :=
  if id.isNone = alias_.isNone then
    (reg, some "either ID or alias must be specified, and not both")
  else
    match id with
    | some idText =>
      match c.UnmarshalText idText with
      | none => (reg, some "deserialize asset ID")
      | some aid =>
        match Registry.findByID c reg aid with
        | (reg, .error _) => (reg, some "find asset by ID")
        | (reg, .ok ptr) =>
          let heap := setTags reg.heap ptr tags
          match heap[ptr]? with
          | some asset =>
            ({ reg with heap := heap, cache := reg.cache.Add asset.AssetID ptr }, none)
          | none => ({ reg with heap := heap }, none)
    | none => (reg, none)

/-- The registry's record of the asset with the given id, read without
changing the registry: the asset behind the pointer that `cache` holds for
the id. -/
def Registry.record (reg : Registry) (id : AssetID) : Option Asset :=
  match (reg.cache.Get id).1 with
  | some ptr => reg.heap[ptr]?
  | none => none

/-- The registry's record of the asset that an alias names: the record of the
id that `aliasCache` holds for the alias. -/
def Registry.recordByAlias (reg : Registry) (alias_ : String) : Option Asset :=
  match (reg.aliasCache.Get alias_).1 with
  | some id => reg.record id
  | none => none

end asset

/-! ## Lemmas on the run-time model -/

theorem cacheInt8_length (cache : List Nat) : (cacheInt8 cache).length = 4 * cache.length := by
  induction cache with
  | nil => rfl
  | cons w ws ih => simp [cacheInt8, wordInt8, ih]; omega

theorem copy_length {α : Type} (dst src : List α) : (copy dst src).length = dst.length := by
  simp [copy]; omega

theorem getElem?_copy_lt {α : Type} (dst src : List α) (k : Nat) (h1 : k < src.length)
    (h2 : k < dst.length) : (copy dst src)[k]? = src[k]? := by
  unfold copy
  rw [List.getElem?_append_left (by simp; omega)]
  rw [List.getElem?_take_of_lt h2]

theorem getElem?_copy_ge {α : Type} (dst src : List α) (k : Nat) (h1 : src.length ≤ k) :
    (copy dst src)[k]? = dst[k]? := by
  unfold copy
  by_cases h : dst.length ≤ src.length
  · rw [List.getElem?_eq_none (by simp; omega), List.getElem?_eq_none (by omega)]
  · rw [List.getElem?_append_right (by simp; omega)]
    simp
    congr 1
    omega

theorem getElem?_take_drop {α : Type} (xs : List α) (lo hi k : Nat) (h : lo + k < hi) :
    ((xs.take hi).drop lo)[k]? = xs[lo + k]? := by
  rw [List.getElem?_drop, List.getElem?_take_of_lt h]

theorem add_mod_window (X L k : Nat) (hk : k ≤ L) (hL : 0 < L) :
    (X + k) % L = if X % L + k < L then X % L + k else X % L + k - L := by
  have ha : X % L < L := Nat.mod_lt _ hL
  have h1 : (X + k) % L = (X % L + k) % L := by
    rw [Nat.add_mod, Nat.add_mod (X % L) k, Nat.mod_mod]
  rw [h1]
  split
  · next h => exact Nat.mod_eq_of_lt h
  · next h =>
    rw [Nat.mod_eq_sub_mod (by omega)]
    exact Nat.mod_eq_of_lt (by omega)

theorem windowIndex_lt (matSize L p i : Nat) (hL : 0 < L) : windowIndex matSize L p i < L :=
  Nat.mod_lt _ hL

theorem windowIndex_succ (matSize L p i : Nat) (hL : 0 < L) (hs : matSize * matSize ≤ L) :
    windowIndex matSize L p (i + 1) =
      if windowIndex matSize L p i + matSize * matSize < L
      then windowIndex matSize L p i + matSize * matSize
      else windowIndex matSize L p i + matSize * matSize - L := by
  unfold windowIndex
  have h : matSize * matSize * (i + 1) + p = (matSize * matSize * i + p) + matSize * matSize := by
    ring
  rw [h]
  exact add_mod_window _ L _ hs hL

theorem windowIndex_add (matSize L p i k : Nat) (hL : 0 < L) (hk : k ≤ L) :
    (matSize * matSize * i + p + k) % L =
      if windowIndex matSize L p i + k < L
      then windowIndex matSize L p i + k
      else windowIndex matSize L p i + k - L := by
  unfold windowIndex
  exact add_mod_window _ L _ hk hL

/-- What one iteration of the loop builds when the cache covers `cacheLength` bytes. -/
theorem fillMatrix_window (matSize L : Nat) (c8 sp : List Int) (pIdx p i : Nat)
    (hp : primeAt pIdx = .ok p) (hs0 : 0 < matSize * matSize) (hs : matSize * matSize ≤ L)
    (hlen : L ≤ c8.length) :
    ∃ m, fillMatrix matSize L c8 sp pIdx i = .ok m ∧ m.rows = matSize ∧ m.cols = matSize ∧
      m.elements.length = matSize * matSize ∧
      ∀ k, k < matSize * matSize →
        m.elements[k]? = c8[(matSize * matSize * i + p + k) % L]? := by
  have hL : 0 < L := by omega
  have ha := windowIndex_lt matSize L p i hL
  have hb := windowIndex_succ matSize L p i hL hs
  have hadd := fun k (hk : k ≤ L) => windowIndex_add matSize L p i k hL hk
  unfold fillMatrix
  simp only [hp, bind, Except.bind, pure, Except.pure, Nat.pos_iff_ne_zero.mp hL, if_false]
  generalize windowIndex matSize L p i = a at ha hb hadd ⊢
  generalize windowIndex matSize L p (i + 1) = b at hb ⊢
  generalize matSize * matSize = s at hs0 hs hadd hb ⊢
  by_cases hc : a + s < L
  · rw [if_pos hc] at hb
    subst hb
    have hsl : slice c8 sp a (a + s) = .ok (((c8 ++ sp).take (a + s)).drop a) := by
      unfold slice
      rw [if_pos ⟨by omega, by omega⟩]
    rw [if_pos (by omega), hsl]
    refine ⟨_, rfl, rfl, rfl, ?_, ?_⟩
    · simp [matrix.New]; omega
    · intro k hk
      rw [hadd k (by omega), if_pos (by omega),
        ← List.getElem?_append_left (show a + k < c8.length by omega)]
      exact getElem?_take_drop (c8 ++ sp) a (a + s) k (by omega)
  · rw [if_neg hc] at hb
    have hab : ¬ a < b := by omega
    have h1 : sliceFrom c8 a = .ok (c8.drop a) := by
      unfold sliceFrom
      rw [if_pos (by omega)]
    have hmd : (copy (List.replicate s (0 : Int)) (c8.drop a)).length = s := by
      rw [copy_length]; simp
    have h2 : sliceFrom (copy (List.replicate s (0 : Int)) (c8.drop a)) (L - a) =
        .ok ((copy (List.replicate s (0 : Int)) (c8.drop a)).drop (L - a)) := by
      unfold sliceFrom
      rw [if_pos (by omega)]
    have h3 : sliceTo c8 sp (b + 1) = .ok ((c8 ++ sp).take (b + 1)) := by
      unfold sliceTo
      rw [if_pos (by omega)]
    rw [if_neg hab, h1]
    simp only [h2, h3]
    refine ⟨_, rfl, rfl, rfl, ?_, ?_⟩
    · simp [matrix.New, copy_length, hmd]; omega
    · intro k hk
      simp only [matrix.New]
      rw [hadd k (by omega)]
      by_cases hk2 : a + k < L
      · rw [if_pos hk2, List.getElem?_append_left (by simp [hmd]; omega),
          List.getElem?_take_of_lt (by omega),
          getElem?_copy_lt _ _ _ (by simp; omega) (by simp; omega)]
        simp
      · rw [if_neg hk2, List.getElem?_append_right (by simp [hmd]; omega)]
        have hlt : (List.take (L - a) (copy (List.replicate s (0 : Int)) (c8.drop a))).length
            = L - a := by simp [hmd]; omega
        rw [hlt, getElem?_copy_lt _ _ _ (by simp; omega) (by simp [hmd]; omega),
          List.getElem?_take_of_lt (by omega),
          List.getElem?_append_left (show k - (L - a) < c8.length by omega)]
        have e : k - (L - a) = a + k - L := by omega
        rw [e]

/-- The loop succeeds when every iteration does and `matList` has a slot for
each index; it writes slot `j` with the matrix of iteration `j` and leaves the
other slots alone. -/
theorem fillLoop_ok (matSize L : Nat) (c8 sp : List Int) (pIdx : Nat) (P : Nat → Matrix → Prop) :
    ∀ (todo i0 : Nat) (ml : List Matrix), i0 + todo ≤ ml.length →
      (∀ j, i0 ≤ j → j < i0 + todo → ∃ m, fillMatrix matSize L c8 sp pIdx j = .ok m ∧ P j m) →
      ∃ out, fillLoop matSize L c8 sp pIdx todo i0 ml = .ok out ∧ out.length = ml.length ∧
        (∀ j, i0 ≤ j → j < i0 + todo → ∃ m, out[j]? = some m ∧ P j m) ∧
        (∀ j, j < i0 ∨ i0 + todo ≤ j → out[j]? = ml[j]?) := by
  intro todo
  induction todo with
  | zero =>
    intro i0 ml _ _
    refine ⟨ml, rfl, rfl, ?_, ?_⟩
    · intro j h1 h2; omega
    · intro j _; rfl
  | succ n ih =>
    intro i0 ml hlen hbody
    obtain ⟨m, hm, hPm⟩ := hbody i0 (le_refl _) (by omega)
    have hset : setIndex ml i0 m = .ok (ml.set i0 m) := by
      unfold setIndex
      rw [if_pos (by omega)]
    obtain ⟨out, hout, hl, hin, hrest⟩ := ih (i0 + 1) (ml.set i0 m) (by simp; omega)
      (fun j h1 h2 => hbody j (by omega) (by omega))
    refine ⟨out, ?_, ?_, ?_, ?_⟩
    · simp only [fillLoop, hm, hset, bind, Except.bind]
      exact hout
    · simpa using hl
    · intro j h1 h2
      by_cases hj : j = i0
      · subst hj
        refine ⟨m, ?_, hPm⟩
        rw [hrest j (Or.inl (by omega))]
        exact List.getElem?_set_self (by omega)
      · exact hin j (by omega) (by omega)
    · intro j hj
      rw [hrest j (by omega)]
      rw [List.getElem?_set_ne (by omega)]

theorem primes_length : primes.length = 128 := by
  simp [primes]

theorem primeAt_of_lt (pIdx : Nat) (h : pIdx < 128) :
    primeAt pIdx = .ok (primes.getD pIdx 0) := by
  have hl : pIdx < primes.length := by rw [primes_length]; exact h
  unfold primeAt
  rw [List.getD_eq_getElem?_getD, List.getElem?_eq_getElem hl]
  rfl

theorem primeAt_of_ge (pIdx : Nat) (h : 128 ≤ pIdx) :
    primeAt pIdx = .error .primeIndexOutOfRange := by
  have hl : primes.length ≤ pIdx := by rw [primes_length]; exact h
  unfold primeAt
  rw [List.getElem?_eq_none hl]

/-- C1: for matSize >= 1, matNum >= 1, an in-range prime index and a cache of
at least cacheLength = matSize*matSize*matNum bytes (and a matList with a slot
for every index), fillMatrixList returns normally, and byte k of the backing
data of matList[i] is cacheInt8[(matSize*matSize*i + prime + k) mod cacheLength],
in the contiguous and in the wraparound branch alike; bytes of the cache at
or beyond cacheLength never appear. -/
theorem fillMatrixList_circular_window (matList : List Matrix)
    (matSize matNum epochLength : Nat) (cache spare : List Nat) (height : Nat)
    (hSize : 1 ≤ matSize) (hNum : 1 ≤ matNum) (hEpoch : 0 < epochLength)
    (hIdx : primeIndex height epochLength < 128)
    (hCache : matSize * matSize * matNum ≤ (cacheInt8 cache).length)
    (hList : matNum ≤ matList.length) :
    ∃ out, fillMatrixList matList matSize matNum epochLength cache spare height = .ok out ∧
      out.length = matList.length ∧
      ∀ i, i < matNum → ∃ m, out[i]? = some m ∧ m.rows = matSize ∧ m.cols = matSize ∧
        m.elements.length = matSize * matSize ∧
        ∀ k, k < matSize * matSize → ∃ v,
          (cacheInt8 cache)[(matSize * matSize * i +
            primes.getD (primeIndex height epochLength) 0 + k) %
              (matSize * matSize * matNum)]? = some v ∧
          m.elements[k]? = some v := by
  have hs0 : 0 < matSize * matSize := Nat.mul_pos hSize hSize
  have hs : matSize * matSize ≤ matSize * matSize * matNum := Nat.le_mul_of_pos_right _ hNum
  have hp := primeAt_of_lt _ hIdx
  obtain ⟨out, hout, hl, hin, -⟩ := fillLoop_ok matSize (matSize * matSize * matNum)
    (cacheInt8 cache) (cacheInt8 spare) (primeIndex height epochLength)
    (fun i m => m.rows = matSize ∧ m.cols = matSize ∧
        m.elements.length = matSize * matSize ∧
        ∀ k, k < matSize * matSize →
          m.elements[k]? = (cacheInt8 cache)[(matSize * matSize * i +
            primes.getD (primeIndex height epochLength) 0 + k) %
              (matSize * matSize * matNum)]?)
    matNum 0 matList (by omega)
    (fun j _ _ => fillMatrix_window matSize _ (cacheInt8 cache) (cacheInt8 spare) _ _ j hp hs0 hs
      hCache)
  refine ⟨out, ?_, hl, ?_⟩
  · unfold fillMatrixList
    simp only [Nat.pos_iff_ne_zero.mp hEpoch, if_false, bind, Except.bind, pure, Except.pure]
    exact hout
  · intro i hi
    obtain ⟨m, hm, hr, hc, hlen, hk⟩ := hin i (Nat.zero_le _) (by omega)
    refine ⟨m, hm, hr, hc, hlen, ?_⟩
    intro k hklt
    have hb : (matSize * matSize * i + primes.getD (primeIndex height epochLength) 0 + k) %
        (matSize * matSize * matNum) < (cacheInt8 cache).length :=
      lt_of_lt_of_le (Nat.mod_lt _ (by omega)) hCache
    refine ⟨(cacheInt8 cache)[(matSize * matSize * i +
        primes.getD (primeIndex height epochLength) 0 + k) % (matSize * matSize * matNum)],
      List.getElem?_eq_getElem hb, ?_⟩
    rw [hk k hklt, List.getElem?_eq_getElem hb]

set_option maxRecDepth 8000 in
theorem fillMatrixList_circular_window_witness :
    ∃ out, fillMatrixList [matrix.Zeros 0 0, matrix.Zeros 0 0] 2 2 10
        [0x03020100, 0x07060504, 0x0b0a0908] [0x0f0e0d0c] 1 = .ok out ∧
      out.length = [matrix.Zeros 0 0, matrix.Zeros 0 0].length ∧
      ∀ i, i < 2 → ∃ m, out[i]? = some m ∧ m.rows = 2 ∧ m.cols = 2 ∧
        m.elements.length = 2 * 2 ∧
        ∀ k, k < 2 * 2 → ∃ v,
          (cacheInt8 [0x03020100, 0x07060504, 0x0b0a0908])[(2 * 2 * i +
            primes.getD (primeIndex 1 10) 0 + k) % (2 * 2 * 2)]? = some v ∧
          m.elements[k]? = some v :=
  fillMatrixList_circular_window [matrix.Zeros 0 0, matrix.Zeros 0 0] 2 2 10
    [0x03020100, 0x07060504, 0x0b0a0908] [0x0f0e0d0c] 1 (by decide) (by decide) (by decide) (by decide)
    (by decide) (by decide)

/-! ## mulMatrix: lemmas -/

theorem index_ok_lt {α : Type} (xs : List α) (i : Nat) (x : α) (h : index xs i = .ok x) :
    i < xs.length := by
  unfold index at h
  by_contra hc
  rw [List.getElem?_eq_none (by omega)] at h
  cases h

theorem mulRound_ok_length (Multiply : Matrix → Matrix → Except Panic Matrix)
    (matList : List Matrix) (matNum : Nat) (matIndex : List Nat) (i : Nat) (mb : Matrix)
    (r : Matrix × Matrix) (h : mulRound Multiply matList matNum matIndex i mb = .ok r) :
    2 * i + 1 < matIndex.length := by
  unfold mulRound at h
  simp only [bind, Except.bind, pure, Except.pure] at h
  split at h
  · cases h
  split at h
  · cases h
  split at h
  · cases h
  split at h
  · cases h
  split at h
  · cases h
  · next b1 hb1 => exact index_ok_lt _ _ _ hb1

theorem mulLoop_short (Multiply : Matrix → Matrix → Except Panic Matrix)
    (matList : List Matrix) (matNum : Nat) (matIndex : List Nat) :
    ∀ (todo i : Nat) (ma mb : Matrix), 1 ≤ todo → matIndex.length < 2 * (i + todo) →
      ∃ e, mulLoop Multiply matList matNum matIndex todo i ma mb = .error e := by
  intro todo
  induction todo with
  | zero => intro i ma mb h; omega
  | succ n ih =>
    intro i ma mb _ hlen
    unfold mulLoop
    simp only [bind, Except.bind]
    cases hr : mulRound Multiply matList matNum matIndex i mb with
    | error e => exact ⟨e, rfl⟩
    | ok r =>
      have hl := mulRound_ok_length _ _ _ _ _ _ _ hr
      exact ih (i + 1) r.1 r.2 (by omega) (by omega)

/-- C7: when `matIndex` has fewer than `2*mulRounds` bytes and at least one
round is asked for, `mulMatrix` fails: it returns no matrix, whatever the
matrix list, the sizes and the behaviour of Multiply. -/
theorem mulMatrix_short_matIndex_fails (Multiply : Matrix → Matrix → Except Panic Matrix)
    (matList : List Matrix) (matSize matNum mulRounds : Nat) (matIndex : List Nat)
    (hRounds : 1 ≤ mulRounds) (hShort : matIndex.length < 2 * mulRounds) :
    ∃ e, mulMatrix Multiply matList matSize matNum mulRounds matIndex = .error e := by
  unfold mulMatrix
  simp only [bind, Except.bind]
  cases h0 : index matList 0 with
  | error e => exact ⟨e, rfl⟩
  | ok mb => exact mulLoop_short _ _ _ _ mulRounds 0 _ mb hRounds (by omega)

theorem mulMatrix_short_matIndex_fails_witness :
    ∃ e, mulMatrix matrix.Multiply [matrix.New 1 1 [1], matrix.New 1 1 [2]] 1 2 2 [1, 0, 1] =
      .error e :=
  mulMatrix_short_matIndex_fails matrix.Multiply [matrix.New 1 1 [1], matrix.New 1 1 [2]]
    1 2 2 [1, 0, 1] (by decide) (by decide)

theorem index_ok_mem {α : Type} (xs : List α) (i : Nat) (x : α) (h : index xs i = .ok x) :
    x ∈ xs := by
  unfold index at h
  cases hx : xs[i]? with
  | none => rw [hx] at h; cases h
  | some y =>
    rw [hx] at h
    cases h
    exact List.getElem?_mem hx

theorem rem_uint8 (b matNum : Nat) (hb : b < 256) (h1 : 1 ≤ matNum) (h2 : matNum ≤ 255) :
    rem (uint8 b) (uint8 matNum) = .ok (b % matNum) := by
  unfold rem uint8
  rw [Nat.mod_eq_of_lt hb, Nat.mod_eq_of_lt (by omega), if_neg (by omega)]

theorem specChain_succ (Multiply : Matrix → Matrix → Except Panic Matrix)
    (matList : List Matrix) (matNum : Nat) (matIndex : List Nat)
    (h1 : 1 ≤ matNum) (h2 : matNum ≤ 255) (hBytes : ∀ b ∈ matIndex, b < 256) (i : Nat) :
    specChain Multiply matList matNum matIndex (i + 1) =
      match specChain Multiply matList matNum matIndex i with
      | .error e => .error e
      | .ok mb =>
        match mulRound Multiply matList matNum matIndex i mb with
        | .error e => .error e
        | .ok r => .ok r.2 := by
  rw [specChain]
  simp only [bind, Except.bind]
  cases specChain Multiply matList matNum matIndex i with
  | error e => rfl
  | ok mb =>
    simp only [mulRound, bind, Except.bind, pure, Except.pure]
    cases h0 : index matIndex (2 * i) with
    | error e => rfl
    | ok b0 =>
      simp only [rem_uint8 b0 matNum (hBytes b0 (index_ok_mem _ _ _ h0)) h1 h2]
      cases index matList (b0 % matNum) with
      | error e => rfl
      | ok a =>
        simp only []
        cases Multiply a mb with
        | error e => rfl
        | ok ma =>
          simp only []
          cases hb1 : index matIndex (2 * i + 1) with
          | error e => rfl
          | ok b1 =>
            simp only [rem_uint8 b1 matNum (hBytes b1 (index_ok_mem _ _ _ hb1)) h1 h2]
            cases index matList (b1 % matNum) with
            | error e => rfl
            | ok b =>
              simp only []
              cases Multiply ma b with
              | error e => rfl
              | ok mb2 => rfl

theorem specChain_error (Multiply : Matrix → Matrix → Except Panic Matrix)
    (matList : List Matrix) (matNum : Nat) (matIndex : List Nat) (r : Nat) (e : Panic)
    (h : specChain Multiply matList matNum matIndex r = .error e) (n : Nat) :
    specChain Multiply matList matNum matIndex (r + n) = .error e := by
  induction n with
  | zero => exact h
  | succ n ih =>
    rw [← Nat.add_assoc, specChain, ih]
    rfl

theorem mulLoop_eq_specChain (Multiply : Matrix → Matrix → Except Panic Matrix)
    (matList : List Matrix) (matNum : Nat) (matIndex : List Nat)
    (h1 : 1 ≤ matNum) (h2 : matNum ≤ 255) (hBytes : ∀ b ∈ matIndex, b < 256) :
    ∀ (todo i : Nat) (ma mb : Matrix),
      specChain Multiply matList matNum matIndex i = .ok mb →
      mulLoop Multiply matList matNum matIndex todo i ma mb =
        specChain Multiply matList matNum matIndex (i + todo) := by
  intro todo
  induction todo with
  | zero => intro i ma mb h; rw [mulLoop, Nat.add_zero, h]
  | succ n ih =>
    intro i ma mb h
    have hs := specChain_succ Multiply matList matNum matIndex h1 h2 hBytes i
    rw [h] at hs
    simp only [] at hs
    rw [mulLoop]
    simp only [bind, Except.bind]
    have e : i + (n + 1) = (i + 1) + n := by omega
    rw [e]
    cases hr : mulRound Multiply matList matNum matIndex i mb with
    | error err =>
      rw [hr] at hs
      exact (specChain_error _ _ _ _ _ _ hs n).symm
    | ok r =>
      rw [hr] at hs
      exact ih (i + 1) r.1 r.2 hs

/-- The multiplication chain of the specification is what `mulMatrix`
computes as long as `matNum` fits in a uint8 (1 ≤ matNum ≤ 255): there the
selected index is the byte value modulo `matNum`. -/
theorem mulMatrix_eq_specChain (Multiply : Matrix → Matrix → Except Panic Matrix)
    (matList : List Matrix) (matSize matNum mulRounds : Nat) (matIndex : List Nat)
    (h1 : 1 ≤ matNum) (h2 : matNum ≤ 255) (hBytes : ∀ b ∈ matIndex, b < 256) :
    mulMatrix Multiply matList matSize matNum mulRounds matIndex =
      specChain Multiply matList matNum matIndex mulRounds := by
  unfold mulMatrix
  simp only [bind, Except.bind]
  cases h0 : index matList 0 with
  | error e =>
    have := specChain_error Multiply matList matNum matIndex 0 e (by rw [specChain]; exact h0)
      mulRounds
    rw [Nat.zero_add] at this
    exact this.symm
  | ok mb =>
    have := mulLoop_eq_specChain Multiply matList matNum matIndex h1 h2 hBytes mulRounds 0
      (matrix.Zeros matSize matSize) mb (by rw [specChain]; exact h0)
    rw [Nat.zero_add] at this
    exact this

set_option maxRecDepth 20000 in
/-- C2: the narrowing `uint8(matNum)` breaks the chain for `matNum > 255`.
With `matNum = 256` the divisor is 0 and `mulMatrix` panics on the first
round, for every Multiply; with `matNum = 257` the divisor is 1, every byte
selects `matList[0]`, and `mulMatrix` returns [1] where the chain of the
specification (byte value modulo 257, so `matList[1]`) gives [4]. -/
theorem mulMatrix_index_narrowed :
    (∀ Multiply : Matrix → Matrix → Except Panic Matrix,
      mulMatrix Multiply (List.replicate 256 (matrix.New 1 1 [1])) 1 256 1 [0, 0] =
        .error .divideByZero) ∧
    specChain matrix.Multiply (List.replicate 256 (matrix.New 1 1 [1])) 256 [0, 0] 1 =
      .ok (matrix.New 1 1 [1]) ∧
    mulMatrix matrix.Multiply
      (matrix.New 1 1 [1] :: matrix.New 1 1 [2] :: List.replicate 255 (matrix.New 1 1 [1]))
      1 257 1 [1, 1] = .ok (matrix.New 1 1 [1]) ∧
    specChain matrix.Multiply
      (matrix.New 1 1 [1] :: matrix.New 1 1 [2] :: List.replicate 255 (matrix.New 1 1 [1]))
      257 [1, 1] 1 = .ok (matrix.New 1 1 [4]) := by
  refine ⟨fun Multiply => rfl, ?_, ?_, ?_⟩ <;> decide

/-! ## hashMatrix: lemmas -/

theorem Get_ok (m : Matrix) (matSize : Nat) (hr : m.rows = matSize) (hc : m.cols = matSize)
    (hl : m.elements.length = matSize * matSize) (i j : Nat)
    (hi1 : 1 ≤ i) (hi2 : i ≤ matSize) (hj1 : 1 ≤ j) (hj2 : j ≤ matSize) :
    ∃ v, matrix.Get m i j = .ok v := by
  have hlt : (i - 1) * matSize + (j - 1) < m.elements.length := by
    rw [hl]
    have h1 : (i - 1) * matSize ≤ (matSize - 1) * matSize := Nat.mul_le_mul_right _ (by omega)
    have h2 : (matSize - 1) * matSize + matSize = matSize * matSize := by
      have e : matSize = (matSize - 1) + 1 := by omega
      nth_rewrite 4 [e]
      rw [Nat.add_mul, Nat.one_mul]
    omega
  refine ⟨m.elements[(i - 1) * matSize + (j - 1)], ?_⟩
  unfold matrix.Get index
  rw [if_pos ⟨hi1, by omega, hj1, by omega⟩, hc, List.getElem?_eq_getElem hlt]

theorem hashRow_ok (m : Matrix) (i : Nat) :
    ∀ (todo j : Nat) (item : List Nat),
      (∀ t, t < todo → ∃ v, matrix.Get m i (j + t) = .ok v) →
      ∃ out, hashRow m i todo j item = .ok out ∧ out.length = item.length + todo ∧
        (∀ k, k < item.length → out[k]? = item[k]?) ∧
        ∀ t, t < todo → ∃ v, matrix.Get m i (j + t) = .ok v ∧
          out[item.length + t]? = some (byte v) := by
  intro todo
  induction todo with
  | zero =>
    intro j item _
    exact ⟨item, rfl, rfl, fun _ _ => rfl, fun t ht => by omega⟩
  | succ n ih =>
    intro j item hG
    obtain ⟨v, hv⟩ := hG 0 (by omega)
    obtain ⟨out, hout, hlen, hpre, hnew⟩ := ih (j + 1) (item ++ [byte v])
      (fun t ht => by
        have := hG (t + 1) (by omega)
        rwa [show j + (t + 1) = j + 1 + t by omega] at this)
    refine ⟨out, ?_, ?_, ?_, ?_⟩
    · rw [hashRow]
      simp only [bind, Except.bind]
      rw [Nat.add_zero] at hv
      rw [hv]
      exact hout
    · rw [hlen]; simp; omega
    · intro k hk
      rw [hpre k (by simp; omega), List.getElem?_append_left hk]
    · intro t ht
      cases t with
      | zero =>
        refine ⟨v, hv, ?_⟩
        rw [Nat.add_zero, hpre _ (by simp), List.getElem?_append_right (le_refl _)]
        simp
      | succ t =>
        obtain ⟨w, hw, hw2⟩ := hnew t (by omega)
        refine ⟨w, ?_, ?_⟩
        · rw [show j + (t + 1) = j + 1 + t by omega]; exact hw
        · rw [← hw2]
          congr 1
          simp
          omega

theorem hashRows_ok (m : Matrix) (matSize : Nat) :
    ∀ (todo i : Nat) (item : List Nat),
      (∀ t c, t < todo → c < matSize → ∃ v, matrix.Get m (i + t) (1 + c) = .ok v) →
      ∃ out, hashRows m matSize todo i item = .ok out ∧
        out.length = item.length + todo * matSize ∧
        (∀ k, k < item.length → out[k]? = item[k]?) ∧
        ∀ t c, t < todo → c < matSize → ∃ v, matrix.Get m (i + t) (1 + c) = .ok v ∧
          out[item.length + t * matSize + c]? = some (byte v) := by
  intro todo
  induction todo with
  | zero =>
    intro i item _
    exact ⟨item, rfl, by simp, fun _ _ => rfl, fun t c ht => by omega⟩
  | succ n ih =>
    intro i item hG
    obtain ⟨row, hrow, hrlen, hrpre, hrnew⟩ := hashRow_ok m i matSize 1 item
      (fun t ht => by simpa using hG 0 t (by omega) ht)
    obtain ⟨out, hout, hlen, hpre, hnew⟩ := ih (i + 1) row
      (fun t c ht hc => by
        have := hG (t + 1) c (by omega) hc
        rwa [show i + (t + 1) = i + 1 + t by omega] at this)
    refine ⟨out, ?_, ?_, ?_, ?_⟩
    · rw [hashRows]
      simp only [bind, Except.bind]
      rw [hrow]
      exact hout
    · rw [hlen, hrlen, Nat.succ_mul]; omega
    · intro k hk
      rw [hpre k (by omega), hrpre k hk]
    · intro t c ht hc
      cases t with
      | zero =>
        obtain ⟨v, hv, hv2⟩ := hrnew c hc
        refine ⟨v, by simpa using hv, ?_⟩
        rw [Nat.zero_mul, Nat.add_zero, hpre _ (by omega)]
        exact hv2
      | succ t =>
        obtain ⟨w, hw, hw2⟩ := hnew t c (by omega) hc
        refine ⟨w, ?_, ?_⟩
        · rw [show i + (t + 1) = i + 1 + t by omega]; exact hw
        · rw [← hw2, hrlen, Nat.succ_mul]
          congr 1
          omega

/-- The conversion `byte(v)` gives the two's-complement byte: a value below
256 that differs from `v` by a multiple of 256, so `v` itself for an int8
from 0 to 127 and `v + 256` for an int8 from -128 to -1. -/
theorem byte_twos_complement (v : Int) :
    byte v < 256 ∧ (256 : Int) ∣ (byte v : Int) - v ∧
      (0 ≤ v → v ≤ 127 → (byte v : Int) = v) ∧
      (-128 ≤ v → v < 0 → (byte v : Int) = v + 256) := by
  unfold byte
  omega

/-- C3: for a matSize x matSize matrix m (matSize >= 0), hashMatrix returns
the SHA3-256 digest of a byte sequence of exactly matSize*matSize bytes whose
byte b at position (i-1)*matSize + (j-1) is the two's-complement byte of the
entry v = m.Get(i, j), for all i, j in 1..matSize (the row-major flattening):
b is below 256 and differs from v by a multiple of 256, that is b = v for an
int8 entry from 0 to 127 and b = v + 256 for an int8 entry from -128 to -1. -/
theorem hashMatrix_row_major (sum256 : List Nat → List Nat) (m : Matrix) (matSize : Nat)
    (hRows : m.rows = matSize) (hCols : m.cols = matSize)
    (hData : m.elements.length = matSize * matSize) :
    ∃ item, hashItem m matSize = .ok item ∧
      hashMatrix sum256 m matSize = .ok (bc.NewHash (sum256 item)) ∧
      item.length = matSize * matSize ∧
      ∀ i j, 1 ≤ i → i ≤ matSize → 1 ≤ j → j ≤ matSize →
        ∃ v b, matrix.Get m i j = .ok v ∧
          item[(i - 1) * matSize + (j - 1)]? = some b ∧ b = byte v ∧
          b < 256 ∧ (256 : Int) ∣ (b : Int) - v ∧
          (0 ≤ v → v ≤ 127 → (b : Int) = v) ∧
          (-128 ≤ v → v < 0 → (b : Int) = v + 256) := by
  obtain ⟨item, hitem, hlen, -, hnew⟩ := hashRows_ok m matSize matSize 1 []
    (fun t c ht hc => Get_ok m matSize hRows hCols hData (1 + t) (1 + c)
      (by omega) (by omega) (by omega) (by omega))
  refine ⟨item, hitem, ?_, ?_, ?_⟩
  · unfold hashMatrix
    simp only [hashItem, hitem, bind, Except.bind, pure, Except.pure]
  · simpa using hlen
  · intro i j hi1 hi2 hj1 hj2
    obtain ⟨v, hv, hv2⟩ := hnew (i - 1) (j - 1) (by omega) (by omega)
    obtain ⟨hb1, hb2, hb3, hb4⟩ := byte_twos_complement v
    refine ⟨v, byte v, ?_, ?_, rfl, hb1, hb2, hb3, hb4⟩
    · rwa [show 1 + (i - 1) = i by omega, show 1 + (j - 1) = j by omega] at hv
    · simpa using hv2

theorem hashMatrix_row_major_witness :
    ∃ item, hashItem (matrix.New 2 2 [1, -2, 3, -128]) 2 = .ok item ∧
      hashMatrix (fun d => d.reverse) (matrix.New 2 2 [1, -2, 3, -128]) 2 =
        .ok (bc.NewHash ((fun d => d.reverse) item)) ∧
      item.length = 2 * 2 ∧
      ∀ i j, 1 ≤ i → i ≤ 2 → 1 ≤ j → j ≤ 2 →
        ∃ v b, matrix.Get (matrix.New 2 2 [1, -2, 3, -128]) i j = .ok v ∧
          item[(i - 1) * 2 + (j - 1)]? = some b ∧ b = byte v ∧
          b < 256 ∧ (256 : Int) ∣ (b : Int) - v ∧
          (0 ≤ v → v ≤ 127 → (b : Int) = v) ∧
          (-128 ≤ v → v < 0 → (b : Int) = v + 256) :=
  hashMatrix_row_major (fun d => d.reverse) (matrix.New 2 2 [1, -2, 3, -128]) 2
    (by decide) (by decide) (by decide)

/-! ## fillMatrixList on a short cache: lemmas -/

theorem fillMatrix_ok_iff (matSize L : Nat) (c8 sp : List Int) (pIdx p i : Nat)
    (hp : primeAt pIdx = .ok p) (hs0 : 0 < matSize * matSize) (hs : matSize * matSize ≤ L) :
    (∃ m, fillMatrix matSize L c8 sp pIdx i = .ok m) ↔
      (if windowIndex matSize L p i + matSize * matSize < L
       then windowIndex matSize L p i + matSize * matSize ≤ c8.length + sp.length
       else windowIndex matSize L p i ≤ c8.length ∧
         windowIndex matSize L p i + matSize * matSize - L + 1 ≤ c8.length + sp.length) := by
  have hL : 0 < L := by omega
  have ha := windowIndex_lt matSize L p i hL
  have hb := windowIndex_succ matSize L p i hL hs
  unfold fillMatrix
  simp only [hp, bind, Except.bind, pure, Except.pure, Nat.pos_iff_ne_zero.mp hL, if_false]
  generalize windowIndex matSize L p i = a at ha hb ⊢
  generalize windowIndex matSize L p (i + 1) = b at hb ⊢
  generalize matSize * matSize = s at hs0 hs hb ⊢
  by_cases hc : a + s < L
  · rw [if_pos hc] at hb
    subst hb
    rw [if_pos (by omega), if_pos hc]
    by_cases hlen : a + s ≤ c8.length + sp.length
    · have hsl : slice c8 sp a (a + s) = .ok (((c8 ++ sp).take (a + s)).drop a) := by
        unfold slice
        rw [if_pos ⟨by omega, by omega⟩]
      rw [hsl]
      exact ⟨fun _ => hlen, fun _ => ⟨_, rfl⟩⟩
    · have hsl : slice c8 sp a (a + s) = .error .sliceBoundsOutOfRange := by
        unfold slice
        rw [if_neg (by omega)]
      rw [hsl]
      exact ⟨fun ⟨m, hm⟩ => (by cases hm), fun h => absurd h hlen⟩
  · rw [if_neg hc] at hb
    have hab : ¬ a < b := by omega
    rw [if_neg hab, if_neg hc]
    by_cases h1 : a ≤ c8.length
    · have e1 : sliceFrom c8 a = .ok (c8.drop a) := by
        unfold sliceFrom
        rw [if_pos h1]
      have hmd : (copy (List.replicate s (0 : Int)) (c8.drop a)).length = s := by
        rw [copy_length]; simp
      have e2 : sliceFrom (copy (List.replicate s (0 : Int)) (c8.drop a)) (L - a) =
          .ok ((copy (List.replicate s (0 : Int)) (c8.drop a)).drop (L - a)) := by
        unfold sliceFrom
        rw [if_pos (by omega)]
      rw [e1]
      simp only [e2]
      by_cases h3 : b + 1 ≤ c8.length + sp.length
      · have e3 : sliceTo c8 sp (b + 1) = .ok ((c8 ++ sp).take (b + 1)) := by
          unfold sliceTo
          rw [if_pos h3]
        simp only [e3]
        exact ⟨fun _ => ⟨h1, by omega⟩, fun _ => ⟨_, rfl⟩⟩
      · have e3 : sliceTo c8 sp (b + 1) = .error .sliceBoundsOutOfRange := by
          unfold sliceTo
          rw [if_neg h3]
        simp only [e3]
        exact ⟨fun ⟨m, hm⟩ => (by cases hm), fun h => absurd (show b + 1 ≤ c8.length + sp.length by omega) h3⟩
    · have e1 : sliceFrom c8 a = .error .sliceBoundsOutOfRange := by
        unfold sliceFrom
        rw [if_neg h1]
      rw [e1]
      exact ⟨fun ⟨m, hm⟩ => (by cases hm), fun h => absurd h.1 h1⟩

theorem fillMatrix_of_primeAt_error (matSize L : Nat) (c8 sp : List Int) (pIdx i : Nat)
    (e : Panic) (h : primeAt pIdx = .error e) :
    fillMatrix matSize L c8 sp pIdx i = .error e := by
  unfold fillMatrix
  rw [h]
  rfl

theorem fillMatrix_of_zero (matSize : Nat) (c8 sp : List Int) (pIdx i p : Nat)
    (h : primeAt pIdx = .ok p) :
    fillMatrix matSize 0 c8 sp pIdx i = .error .divideByZero := by
  unfold fillMatrix
  rw [h]
  rfl

theorem fillMatrix_ok_prime (matSize L : Nat) (c8 sp : List Int) (pIdx i : Nat) (m : Matrix)
    (h : fillMatrix matSize L c8 sp pIdx i = .ok m) : pIdx < 128 ∧ L ≠ 0 := by
  have h128 : pIdx < 128 := by
    by_contra hc
    rw [fillMatrix_of_primeAt_error _ _ _ _ _ _ _ (primeAt_of_ge pIdx (by omega))] at h
    cases h
  refine ⟨h128, ?_⟩
  intro hL
  subst hL
  rw [fillMatrix_of_zero _ _ _ _ _ _ (primeAt_of_lt pIdx h128)] at h
  cases h

theorem fillLoop_ok_imp (matSize L : Nat) (c8 sp : List Int) (pIdx : Nat) :
    ∀ (todo i0 : Nat) (ml out : List Matrix),
      fillLoop matSize L c8 sp pIdx todo i0 ml = .ok out →
      ∀ j, i0 ≤ j → j < i0 + todo →
        (∃ m, fillMatrix matSize L c8 sp pIdx j = .ok m) ∧ j < ml.length := by
  intro todo
  induction todo with
  | zero => intro i0 ml out _ j h1 h2; omega
  | succ n ih =>
    intro i0 ml out h j h1 h2
    rw [fillLoop] at h
    simp only [bind, Except.bind] at h
    cases hm : fillMatrix matSize L c8 sp pIdx i0 with
    | error e => rw [hm] at h; cases h
    | ok m =>
      rw [hm] at h
      simp only [] at h
      by_cases hlt : i0 < ml.length
      · have hset : setIndex ml i0 m = .ok (ml.set i0 m) := by
          unfold setIndex
          rw [if_pos hlt]
        rw [hset] at h
        simp only [] at h
        by_cases hj : j = i0
        · subst hj
          exact ⟨⟨m, hm⟩, hlt⟩
        · have := ih (i0 + 1) (ml.set i0 m) out h j (by omega) (by omega)
          simpa using this
      · have hset : setIndex ml i0 m = .error .indexOutOfRange := by
          unfold setIndex
          rw [if_neg hlt]
        rw [hset] at h
        cases h

theorem windowIndex_mod (matSize matNum p i : Nat) :
    windowIndex matSize (matSize * matSize * matNum) p i % (matSize * matSize) =
      p % (matSize * matSize) := by
  unfold windowIndex
  rw [Nat.mod_mod_of_dvd _ (Dvd.intro _ rfl), Nat.mul_add_mod]

theorem window_position (s n x r : Nat) (hs : 0 < s) (hx : x < s * n) (hr : x % s = r) :
    (x + s < s * n → x + s ≤ s * n - s + r) ∧ (s * n ≤ x + s → x = s * n - s + r) := by
  have hdm : s * (x / s) + r = x := by rw [← hr]; exact Nat.div_add_mod x s
  have hrs : r < s := by rw [← hr]; exact Nat.mod_lt _ hs
  have hq : x / s < n := Nat.div_lt_of_lt_mul hx
  clear hr
  generalize x / s = q at hdm hq
  have hsn : s * (n - 1) + s = s * n := by
    rw [← Nat.mul_succ]
    congr 1
    omega
  by_cases hq2 : q + 1 < n
  · have h3 : s * (q + 1) ≤ s * (n - 1) := Nat.mul_le_mul_left _ (by omega)
    rw [Nat.mul_add, Nat.mul_one] at h3
    constructor
    · intro _; omega
    · intro h; omega
  · have hq3 : q = n - 1 := by omega
    subst hq3
    constructor
    · intro h; omega
    · intro _; omega

theorem windowIndex_no_wrap (matSize L p : Nat) (hL : 0 < L) (hs : matSize * matSize ≤ L) :
    ∀ n, (∀ j, j < n → windowIndex matSize L p j + matSize * matSize < L) →
      windowIndex matSize L p n = windowIndex matSize L p 0 + matSize * matSize * n := by
  intro n
  induction n with
  | zero => intro _; simp
  | succ n ih =>
    intro h
    rw [windowIndex_succ matSize L p n hL hs, if_pos (h n (by omega)),
      ih (fun j hj => h j (by omega)), Nat.mul_add, Nat.mul_one, Nat.add_assoc]

theorem exists_wrap (matSize matNum p : Nat) (hs0 : 0 < matSize * matSize) (hn : 1 ≤ matNum) :
    ∃ i, i < matNum ∧ matSize * matSize * matNum ≤
      windowIndex matSize (matSize * matSize * matNum) p i + matSize * matSize := by
  by_contra hc
  have hL : 0 < matSize * matSize * matNum := Nat.mul_pos hs0 hn
  have hs : matSize * matSize ≤ matSize * matSize * matNum := Nat.le_mul_of_pos_right _ hn
  have h := windowIndex_no_wrap matSize _ p hL hs matNum (fun j hj => by
    by_contra hj2
    exact hc ⟨j, hj, by omega⟩)
  have := windowIndex_lt matSize (matSize * matSize * matNum) p matNum hL
  omega

set_option maxRecDepth 8000 in
/-- C4, counterexample: with matSize = 3 and matNum = 1 (cacheLength = 9), a
cache of one word (4 bytes 1, 2, 3, 4) without spare capacity and height 1
(prime 3), fillMatrixList does not fail: it returns a matrix whose bytes 1..5
were never filled from the cache. -/
theorem fillMatrixList_short_cache_accepted :
    (cacheInt8 [0x04030201]).length < 3 * 3 * 1 ∧
    fillMatrixList [matrix.Zeros 0 0] 3 1 10 [0x04030201] [] 1 =
      .ok [matrix.New 3 3 [4, 0, 0, 0, 0, 0, 1, 2, 3]] := by
  decide

/-- C4, amended: on a cache of fewer than cacheLength bytes (4*len(cache)),
fillMatrixList returns normally exactly when the other arguments are in order
(epochLength not zero, prime index within the table, a slot in matList for
every index), the cache has at least cacheLength - matSize*matSize + r bytes,
and its capacity in bytes (4*cap(cache)) is more than r, where
r = primes[primeIndex] mod (matSize*matSize); in every other case it panics. -/
theorem fillMatrixList_short_cache (matList : List Matrix) (matSize matNum epochLength : Nat)
    (cache spare : List Nat) (height : Nat)
    (hSmall : (cacheInt8 cache).length < matSize * matSize * matNum) :
    (∃ out, fillMatrixList matList matSize matNum epochLength cache spare height = .ok out) ↔
      (0 < epochLength ∧ primeIndex height epochLength < 128 ∧ matNum ≤ matList.length ∧
        matSize * matSize * matNum - matSize * matSize +
          primes.getD (primeIndex height epochLength) 0 % (matSize * matSize) ≤
            (cacheInt8 cache).length ∧
        primes.getD (primeIndex height epochLength) 0 % (matSize * matSize) + 1 ≤
          (cacheInt8 cache).length + (cacheInt8 spare).length) := by
  have hL : 0 < matSize * matSize * matNum := by omega
  have hn : 1 ≤ matNum := by
    by_contra hc
    have : matNum = 0 := by omega
    rw [this] at hL
    simp at hL
  have hs0 : 0 < matSize * matSize := by
    by_contra hc
    have : matSize * matSize = 0 := by omega
    rw [this] at hL
    simp at hL
  have hs : matSize * matSize ≤ matSize * matSize * matNum := Nat.le_mul_of_pos_right _ hn
  have hpos := fun i => window_position (matSize * matSize) matNum
    (windowIndex matSize (matSize * matSize * matNum) (primes.getD (primeIndex height epochLength) 0) i)
    _ hs0 (windowIndex_lt _ _ _ _ hL) (windowIndex_mod matSize matNum _ i)
  constructor
  · rintro ⟨out, hout⟩
    unfold fillMatrixList at hout
    by_cases he : epochLength = 0
    · simp only [he, if_true, bind, Except.bind, throw, throwThe, MonadExceptOf.throw] at hout
      cases hout
    · simp only [he, if_false, bind, Except.bind, pure, Except.pure] at hout
      have hall := fillLoop_ok_imp _ _ _ _ _ _ _ _ _ hout
      obtain ⟨⟨m0, hm0⟩, -⟩ := hall 0 (le_refl _) (by omega)
      have hidx := (fillMatrix_ok_prime _ _ _ _ _ _ _ hm0).1
      have hp := primeAt_of_lt _ hidx
      obtain ⟨i, hi, hwrap⟩ := exists_wrap matSize matNum
        (primes.getD (primeIndex height epochLength) 0) hs0 hn
      obtain ⟨hmi, -⟩ := hall i (Nat.zero_le _) (by omega)
      rw [fillMatrix_ok_iff matSize _ _ _ _ _ i hp hs0 hs, if_neg (by omega)] at hmi
      have hx := (hpos i).2 hwrap
      refine ⟨by omega, hidx, ?_, ?_, ?_⟩
      · have := (hall (matNum - 1) (Nat.zero_le _) (by omega)).2
        omega
      · rw [← hx]; exact hmi.1
      · have h2 := hmi.2
        rw [hx] at h2
        omega
  · rintro ⟨he, hidx, hlist, h1, h2⟩
    have hp := primeAt_of_lt _ hidx
    obtain ⟨out, hout, -⟩ := fillLoop_ok matSize (matSize * matSize * matNum)
      (cacheInt8 cache) (cacheInt8 spare) (primeIndex height epochLength) (fun _ _ => True)
      matNum 0 matList (by omega)
      (fun j _ _ => by
        obtain ⟨m, hm⟩ := (fillMatrix_ok_iff matSize _ (cacheInt8 cache) (cacheInt8 spare)
            _ _ j hp hs0 hs).mpr (by
          by_cases hc : windowIndex matSize (matSize * matSize * matNum)
              (primes.getD (primeIndex height epochLength) 0) j + matSize * matSize <
              matSize * matSize * matNum
          · rw [if_pos hc]
            have := (hpos j).1 hc
            omega
          · rw [if_neg hc]
            have := (hpos j).2 (by omega)
            omega)
        exact ⟨m, hm, trivial⟩)
    refine ⟨out, ?_⟩
    unfold fillMatrixList
    simp only [Nat.pos_iff_ne_zero.mp he, if_false, bind, Except.bind, pure, Except.pure]
    exact hout

set_option maxRecDepth 8000 in
theorem fillMatrixList_short_cache_witness :
    (∃ out, fillMatrixList [matrix.Zeros 0 0] 3 1 10 [0x04030201] [0x08070605] 5 =
        .ok out) ↔
      (0 < 10 ∧ primeIndex 5 10 < 128 ∧ 1 ≤ [matrix.Zeros 0 0].length ∧
        3 * 3 * 1 - 3 * 3 + primes.getD (primeIndex 5 10) 0 % (3 * 3) ≤
          (cacheInt8 [0x04030201]).length ∧
        primes.getD (primeIndex 5 10) 0 % (3 * 3) + 1 ≤
          (cacheInt8 [0x04030201]).length + (cacheInt8 [0x08070605]).length) :=
  fillMatrixList_short_cache [matrix.Zeros 0 0] 3 1 10 [0x04030201] [0x08070605] 5
    (by decide)

/-! ## generateCache -/

/-- C5: the live body of `generateCache` never writes to `dest`: for every
choice of the undeclared scrypt names, every `dest` and every `seed`, `dest`
holds after the call what it held before, and the outcome does not depend on
`seed`, so the buffer of the specification is not built. -/
theorem generateCache_leaves_dest (s : ScryptNames) (dest seed : List Nat) :
    (generateCache s dest seed).1 = dest ∧
      ∀ seed2 : List Nat, generateCache s dest seed2 = generateCache s dest seed :=
  ⟨rfl, fun _ => rfl⟩

/-! ## createSeed -/

theorem foldl_append_bytes (blockHashs : List bc.Hash) :
    ∀ init : List Nat,
      blockHashs.foldl (fun seedSlice blockHash => seedSlice ++ blockHash.Bytes) init =
        init ++ (blockHashs.map bc.Hash.Bytes).flatten := by
  induction blockHashs with
  | nil => intro init; simp
  | cons h hs ih =>
    intro init
    rw [List.foldl_cons, ih]
    simp

theorem makeHasher_fits (h : List Nat → List Nat) (dest data : List Nat)
    (hlen : (h data).length = dest.length) : makeHasher h dest data = h data := by
  unfold makeHasher
  rw [if_pos (by omega), hlen, List.drop_length, List.append_nil]

/-- C6: with a 32-byte digest function for SHA3-256, createSeed(p, [h_1..h_n])
is the 32-byte value SHA3-256(bytes(p) ++ bytes(h_1) ++ ... ++ bytes(h_n)),
the hashes taken in the given order; for the empty list it is
SHA3-256(bytes(p)). -/
theorem createSeed_eq (sum256 : List Nat → List Nat) (hDigest : ∀ d, (sum256 d).length = 32)
    (preSeed : bc.Hash) (blockHashs : List bc.Hash) :
    createSeed sum256 preSeed blockHashs =
        sum256 (preSeed.Bytes ++ (blockHashs.map bc.Hash.Bytes).flatten) ∧
      (createSeed sum256 preSeed blockHashs).length = 32 ∧
      createSeed sum256 preSeed [] = sum256 preSeed.Bytes := by
  have key : ∀ hs : List bc.Hash, createSeed sum256 preSeed hs =
      sum256 (preSeed.Bytes ++ (hs.map bc.Hash.Bytes).flatten) := by
    intro hs
    unfold createSeed
    simp only []
    rw [foldl_append_bytes, makeHasher_fits _ _ _ (by rw [hDigest]; simp)]
  refine ⟨key _, ?_, ?_⟩
  · rw [key, hDigest]
  · rw [key]; simp

theorem createSeed_eq_witness :
    createSeed (fun d => (d ++ List.replicate 32 0).take 32) (bc.NewHash [1, 2])
        [bc.NewHash [3], bc.NewHash [4, 5]] =
        (fun d => (d ++ List.replicate 32 0).take 32)
          ((bc.NewHash [1, 2]).Bytes ++
            ([bc.NewHash [3], bc.NewHash [4, 5]].map bc.Hash.Bytes).flatten) ∧
      (createSeed (fun d => (d ++ List.replicate 32 0).take 32) (bc.NewHash [1, 2])
        [bc.NewHash [3], bc.NewHash [4, 5]]).length = 32 ∧
      createSeed (fun d => (d ++ List.replicate 32 0).take 32) (bc.NewHash [1, 2]) [] =
        (fun d => (d ++ List.replicate 32 0).take 32) (bc.NewHash [1, 2]).Bytes :=
  createSeed_eq (fun d => (d ++ List.replicate 32 0).take 32) (fun d => by simp)
    (bc.NewHash [1, 2]) [bc.NewHash [3], bc.NewHash [4, 5]]

/-! ## The prime-table boundary -/

theorem primeIndex_pos (height epochLength : Nat) (h1 : 1 ≤ height) (h2 : height < 18446744073709551616) :
    primeIndex height epochLength = (height - 1) % epochLength := by
  unfold primeIndex
  have e : height + 18446744073709551615 = (height - 1) + 18446744073709551616 := by omega
  have hlt : (height - 1) % 18446744073709551616 = height - 1 := Nat.mod_eq_of_lt (by omega)
  rw [e, Nat.add_mod_right, hlt]

theorem fillLoop_prime_out_of_range (matSize L : Nat) (c8 sp : List Int) (pIdx : Nat)
    (matList : List Matrix) (n i : Nat) (h : 128 ≤ pIdx) :
    fillLoop matSize L c8 sp pIdx (n + 1) i matList = .error .primeIndexOutOfRange := by
  rw [fillLoop]
  simp only [bind, Except.bind]
  rw [fillMatrix_of_primeAt_error _ _ _ _ _ _ _ (primeAt_of_ge _ h)]

theorem fillMatrixList_prime_out_of_range (matList : List Matrix)
    (matSize matNum epochLength : Nat) (cache spare : List Nat) (height : Nat)
    (hE : epochLength ≠ 0) (hNum : 1 ≤ matNum) (h : 128 ≤ primeIndex height epochLength) :
    fillMatrixList matList matSize matNum epochLength cache spare height =
      .error .primeIndexOutOfRange := by
  unfold fillMatrixList
  simp only [hE, if_false, bind, Except.bind, pure, Except.pure]
  generalize primeIndex height epochLength = pIdx at h ⊢
  obtain ⟨n, hn⟩ : ∃ n, matNum = n + 1 := ⟨matNum - 1, by omega⟩
  rw [hn]
  exact fillLoop_prime_out_of_range _ _ _ _ _ _ _ _ h

set_option maxRecDepth 8000 in
/-- C8, counterexample: with epochLength = 129, at the maximal heights 128
and 257 of epochs 0 and 1 (h = 129*e + 128) the prime index is 127, inside
the table, and fillMatrixList returns normally. -/
theorem fillMatrixList_epoch129_max_height_ok :
    128 / 129 = 0 ∧ 257 / 129 = 1 ∧
    primeIndex 128 129 = 127 ∧ primeIndex 257 129 = 127 ∧
    fillMatrixList [matrix.Zeros 0 0] 1 1 129 [0x04030201] [] 128 = .ok [matrix.New 1 1 [1]] ∧
    fillMatrixList [matrix.Zeros 0 0] 1 1 129 [0x04030201] [] 257 = .ok [matrix.New 1 1 [1]] := by
  decide

/-- C8, amended: with epochLength = 129 and matNum >= 1, fillMatrixList fails
with an out-of-range prime index at every height h = 129*e with e >= 1, the
heights with (h - 1) mod 129 = 128: the minimal height of epoch e = h / 129.
At the maximal height 129*e + 128 of an epoch the prime index is 127, the
last entry of the table. -/
theorem fillMatrixList_epoch129_fails (matList : List Matrix) (matSize matNum : Nat)
    (cache spare : List Nat) (e : Nat) (hNum : 1 ≤ matNum) (hEpoch : 1 ≤ e)
    (hHeight : 129 * e + 128 < 18446744073709551616) :
    (129 * e) / 129 = e ∧
    fillMatrixList matList matSize matNum 129 cache spare (129 * e) =
      .error .primeIndexOutOfRange ∧
    (129 * e + 128) / 129 = e ∧ primeIndex (129 * e + 128) 129 = 127 := by
  obtain ⟨k, rfl⟩ : ∃ k, e = k + 1 := ⟨e - 1, by omega⟩
  have h128 : primeIndex (129 * (k + 1)) 129 = 128 := by
    rw [primeIndex_pos _ _ (by omega) (by omega)]
    have e1 : 129 * (k + 1) - 1 = 128 + 129 * k := by omega
    rw [e1, Nat.add_mul_mod_self_left]
  have h127 : primeIndex (129 * (k + 1) + 128) 129 = 127 := by
    rw [primeIndex_pos _ _ (by omega) (by omega)]
    have e1 : 129 * (k + 1) + 128 - 1 = 127 + 129 * (k + 1) := by omega
    rw [e1, Nat.add_mul_mod_self_left]
  refine ⟨by omega, ?_, by omega, h127⟩
  exact fillMatrixList_prime_out_of_range _ _ _ _ _ _ _ (by decide) hNum (by rw [h128])

theorem fillMatrixList_epoch129_fails_witness :
    (129 * 1) / 129 = 1 ∧
    fillMatrixList [matrix.Zeros 0 0] 1 1 129 [0x04030201] [] (129 * 1) =
      .error .primeIndexOutOfRange ∧
    (129 * 1 + 128) / 129 = 1 ∧ primeIndex (129 * 1 + 128) 129 = 127 :=
  fillMatrixList_epoch129_fails [matrix.Zeros 0 0] 1 1 [0x04030201] [] 1 (by decide) (by decide)
    (by decide)

/-! ## The prime table -/

theorem hasDivisorBelow_iff (n : Nat) :
    ∀ b, hasDivisorBelow n b = true ↔ ∃ d, 2 ≤ d ∧ d < b ∧ d ∣ n := by
  intro b
  induction b with
  | zero => simp [hasDivisorBelow]
  | succ b ih =>
    rw [hasDivisorBelow, Bool.or_eq_true, ih]
    constructor
    · rintro (h | ⟨d, h1, h2, h3⟩)
      · simp only [Bool.and_eq_true, decide_eq_true_eq, beq_iff_eq] at h
        exact ⟨b, h.1, by omega, Nat.dvd_of_mod_eq_zero h.2⟩
      · exact ⟨d, h1, by omega, h3⟩
    · rintro ⟨d, h1, h2, h3⟩
      by_cases hd : d = b
      · subst hd
        left
        simp only [Bool.and_eq_true, decide_eq_true_eq, beq_iff_eq]
        exact ⟨h1, Nat.mod_eq_zero_of_dvd h3⟩
      · right
        exact ⟨d, h1, by omega, h3⟩

theorem smallPrime_iff (n : Nat) (hn : n < 784) : smallPrime n = true ↔ Nat.Prime n := by
  unfold smallPrime
  rw [Bool.and_eq_true, Bool.not_eq_true', decide_eq_true_eq]
  constructor
  · rintro ⟨h2, hno⟩
    rw [Nat.prime_def_le_sqrt]
    refine ⟨h2, ?_⟩
    intro m hm2 hms hdvd
    have hmm : m * m ≤ n := Nat.le_sqrt.mp hms
    have hlt28 : m < 28 := by
      by_contra hc
      have : 28 * 28 ≤ m * m := Nat.mul_le_mul (by omega) (by omega)
      omega
    have hltn : m < n := by
      have : m * 2 ≤ m * m := Nat.mul_le_mul_left _ hm2
      omega
    have : hasDivisorBelow n (min n 28) = true :=
      (hasDivisorBelow_iff n _).mpr ⟨m, hm2, by omega, hdvd⟩
    rw [hno] at this
    cases this
  · intro hp
    refine ⟨hp.two_le, ?_⟩
    cases hb : hasDivisorBelow n (min n 28) with
    | false => rfl
    | true =>
      exfalso
      obtain ⟨d, h1, h2, h3⟩ := (hasDivisorBelow_iff n _).mp hb
      rcases (Nat.dvd_prime hp).mp h3 with h | h <;> omega

/-- C9: the table `primes` has exactly 128 entries, every entry is prime,
the entries are strictly increasing, the first is 3 and the last is 727, and
every prime from 3 to 727 is an entry: the table is the 128 primes from 3 to
727 (the prime 2 is not in it). -/
theorem primes_table :
    primes.length = 128 ∧ (∀ p ∈ primes, Nat.Prime p) ∧ primes.Pairwise (· < ·) ∧
      primes.head? = some 3 ∧ primes.getLast? = some 727 ∧
      ∀ q, 3 ≤ q → q ≤ 727 → Nat.Prime q → q ∈ primes := by
  have hall : ∀ p ∈ primes, p < 784 ∧ smallPrime p = true := by decide!
  have hcomplete : ∀ q, q < 728 → 3 ≤ q → smallPrime q = true → q ∈ primes := by decide!
  refine ⟨primes_length, ?_, by decide!, by decide!, by decide!, ?_⟩
  · intro p hp
    exact (smallPrime_iff p (hall p hp).1).mp (hall p hp).2
  · intro q h3 h727 hq
    exact hcomplete q (by omega) h3 ((smallPrime_iff q (by omega)).mpr hq)

/-! ## Heights and the layout of the matrix list -/

set_option maxRecDepth 8000 in
/-- C10, counterexample: heights 1 and 2 lie in the same epoch for
epochLength = 10 (1 / 10 = 2 / 10), yet with matSize = 1 and matNum = 4
fillMatrixList computes startIndex 3 for height 1 and 1 for height 2 at
matrix 0, and returns different matrix lists from the same cache. -/
theorem fillMatrixList_same_epoch_differs :
    1 / 10 = 2 / 10 ∧
    windowIndex 1 (1 * 1 * 4) (primes.getD (primeIndex 1 10) 0) 0 = 3 ∧
    windowIndex 1 (1 * 1 * 4) (primes.getD (primeIndex 2 10) 0) 0 = 1 ∧
    fillMatrixList (List.replicate 4 (matrix.Zeros 0 0)) 1 4 10 [0x03020100] [] 1 =
      .ok [matrix.New 1 1 [3], matrix.New 1 1 [0], matrix.New 1 1 [1], matrix.New 1 1 [2]] ∧
    fillMatrixList (List.replicate 4 (matrix.Zeros 0 0)) 1 4 10 [0x03020100] [] 2 =
      .ok [matrix.New 1 1 [1], matrix.New 1 1 [2], matrix.New 1 1 [3], matrix.New 1 1 [0]] := by
  decide

/-- C10, amended: the layout depends on the height through
(height - 1) mod epochLength only. For every epochLength, matSize, matNum,
cache and matList, and every two heights h1, h2 >= 1 with
(h1 - 1) mod epochLength = (h2 - 1) mod epochLength, fillMatrixList uses the
same prime, computes the same startIndex and endIndex for every matrix index
i and gives the same result for h1 and for h2. -/
theorem fillMatrixList_same_primeIndex (matList : List Matrix)
    (matSize matNum epochLength : Nat) (cache spare : List Nat) (h1 h2 : Nat)
    (hPos1 : 1 ≤ h1) (hPos2 : 1 ≤ h2)
    (hU1 : h1 < 18446744073709551616) (hU2 : h2 < 18446744073709551616)
    (hSame : (h1 - 1) % epochLength = (h2 - 1) % epochLength) :
    primeAt (primeIndex h1 epochLength) = primeAt (primeIndex h2 epochLength) ∧
    (∀ i, windowIndex matSize (matSize * matSize * matNum)
          (primes.getD (primeIndex h1 epochLength) 0) i =
        windowIndex matSize (matSize * matSize * matNum)
          (primes.getD (primeIndex h2 epochLength) 0) i) ∧
    fillMatrixList matList matSize matNum epochLength cache spare h1 =
      fillMatrixList matList matSize matNum epochLength cache spare h2 := by
  have hidx : primeIndex h1 epochLength = primeIndex h2 epochLength := by
    rw [primeIndex_pos h1 _ hPos1 hU1, primeIndex_pos h2 _ hPos2 hU2, hSame]
  refine ⟨by rw [hidx], fun i => by rw [hidx], ?_⟩
  unfold fillMatrixList
  rw [hidx]

theorem fillMatrixList_same_primeIndex_witness :
    primeAt (primeIndex 2 10) = primeAt (primeIndex 12 10) ∧
    (∀ i, windowIndex 1 (1 * 1 * 4) (primes.getD (primeIndex 2 10) 0) i =
        windowIndex 1 (1 * 1 * 4) (primes.getD (primeIndex 12 10) 0) i) ∧
    fillMatrixList (List.replicate 4 (matrix.Zeros 0 0)) 1 4 10 [0x03020100] [] 2 =
      fillMatrixList (List.replicate 4 (matrix.Zeros 0 0)) 1 4 10 [0x03020100] [] 12 :=
  fillMatrixList_same_primeIndex (List.replicate 4 (matrix.Zeros 0 0)) 1 4 10 [0x03020100] []
    2 12 (by decide) (by decide) (by decide) (by decide) (by decide)

/-! ## UpdateTags -/

namespace asset

theorem lru_Add_entries {κ ν : Type} [DecidableEq κ] (c : lru.Cache κ ν) (key : κ) (value : ν) :
    ∃ rest, (c.Add key value).entries = (key, value) :: rest := by
  unfold lru.Cache.Add
  split
  · exact ⟨_, rfl⟩
  · split
    · next h =>
      cases hE : c.entries with
      | nil => rw [hE] at h; simp at h
      | cons e es => exact ⟨(e :: es).dropLast, by simp [List.dropLast]⟩
    · exact ⟨_, rfl⟩

theorem lru_Get_Add {κ ν : Type} [DecidableEq κ] (c : lru.Cache κ ν) (key : κ) (value : ν) :
    ((c.Add key value).Get key).1 = some value := by
  obtain ⟨rest, h⟩ := lru_Add_entries c key value
  unfold lru.Cache.Get
  rw [h]
  simp [List.find?]

theorem lru_Get_some_mem {κ ν : Type} [DecidableEq κ] (c : lru.Cache κ ν) (key : κ) (v : ν)
    (h : (c.Get key).1 = some v) : ∃ e ∈ c.entries, e.2 = v := by
  unfold lru.Cache.Get at h
  cases hf : c.entries.find? (fun e => decide (e.1 = key)) with
  | none => rw [hf] at h; cases h
  | some e =>
    rw [hf] at h
    simp only [Option.some.injEq] at h
    exact ⟨e, List.mem_of_find?_eq_some hf, h⟩

theorem findByID_ptr_valid (c : Codec) (reg r : Registry) (aid : AssetID) (ptr : Nat)
    (hPtr : ∀ e ∈ reg.cache.entries, e.2 < reg.heap.length)
    (h : Registry.findByID c reg aid = (r, .ok ptr)) : ptr < r.heap.length := by
  unfold Registry.findByID at h
  cases hg : reg.cache.Get aid with
  | mk found cache =>
    rw [hg] at h
    cases found with
    | some cached =>
      simp only [Prod.mk.injEq, Except.ok.injEq] at h
      obtain ⟨e, he, hev⟩ := lru_Get_some_mem reg.cache aid cached (by rw [hg])
      rw [← h.1, ← h.2, ← hev]
      exact hPtr e he
    | none =>
      simp only [] at h
      cases hd : dbGet reg.db (Key c aid) with
      | none => rw [hd] at h; cases h
      | some bytes =>
        rw [hd] at h
        simp only [] at h
        cases hu : c.Unmarshal bytes with
        | none => rw [hu] at h; cases h
        | some a =>
          rw [hu] at h
          simp only [Prod.mk.injEq, Except.ok.injEq] at h
          rw [← h.1, ← h.2]
          simp

/-- The path by id does what the doc comment of `UpdateTags` says: when a
call by id returns no error, the registry's record of the asset that
`findByID` found carries the new tags. -/
theorem UpdateTags_by_id_sets_tags (c : Codec) (reg reg2 : Registry) (idText : String)
    (tags : Tags) (hPtr : ∀ e ∈ reg.cache.entries, e.2 < reg.heap.length)
    (h : Registry.UpdateTags c reg (some idText) none tags = (reg2, none)) :
    ∃ aid r ptr a0, c.UnmarshalText idText = some aid ∧
      Registry.findByID c reg aid = (r, .ok ptr) ∧ r.heap[ptr]? = some a0 ∧
      reg2.record a0.AssetID = some { a0 with Tags := tags } := by
  unfold Registry.UpdateTags at h
  simp only [Option.isNone_some, Option.isNone_none, Bool.false_eq_true, if_false] at h
  cases hu : c.UnmarshalText idText with
  | none => rw [hu] at h; cases h
  | some aid =>
    rw [hu] at h
    simp only [] at h
    cases hf : Registry.findByID c reg aid with
    | mk r res =>
      rw [hf] at h
      cases res with
      | error e => cases h
      | ok ptr =>
        simp only [] at h
        have hv := findByID_ptr_valid c reg r aid ptr hPtr hf
        have hget : r.heap[ptr]? = some r.heap[ptr] := List.getElem?_eq_getElem hv
        have hset : setTags r.heap ptr tags =
            r.heap.set ptr { r.heap[ptr] with Tags := tags } := by
          unfold setTags
          rw [hget]
        have hnew : (setTags r.heap ptr tags)[ptr]? =
            some { r.heap[ptr] with Tags := tags } := by
          rw [hset]
          exact List.getElem?_set_self hv
        rw [hnew] at h
        simp only [Prod.mk.injEq, and_true] at h
        refine ⟨aid, r, ptr, r.heap[ptr], rfl, hf, hget, ?_⟩
        rw [← h]
        unfold Registry.record
        simp only [lru_Get_Add]
        exact hnew

/-- C11: `UpdateTags` called with an alias (id = nil) returns nil at once and
changes nothing: for every registry, alias and tag map the registry afterwards
is the registry before and the error is nil. In the registry that knows the
asset 7 under the alias gold with tags a=1, the call by alias with tags b=2
returns no error and the record still carries a=1, while the call by id "7"
leaves the record carrying b=2. -/
theorem UpdateTags_by_alias_changes_nothing :
    (∀ (c : Codec) (reg : Registry) (alias_ : String) (tags : Tags),
      Registry.UpdateTags c reg none (some alias_) tags = (reg, none)) ∧
    (let c : Codec := {
        UnmarshalText := fun s => if s = "7" then some 7 else none
        IDString := fun _ => "7"
        Unmarshal := fun _ => none }
     let gold : Asset := {
        AssetID := 7, Alias := some "gold", VMVersion := 1, IssuanceProgram := [],
        Tags := [("a", "1")], RawDefinitionByte := [], Rest := "" }
     let reg : Registry := {
        db := [], heap := [gold], cache := (lru.New 1000).Add 7 0,
        aliasCache := (lru.New 1000).Add "gold" 7 }
     reg.recordByAlias "gold" = some gold ∧
     (Registry.UpdateTags c reg none (some "gold") [("b", "2")]).2 = none ∧
     (Registry.UpdateTags c reg none (some "gold") [("b", "2")]).1.recordByAlias "gold" =
        some gold ∧
     (Registry.UpdateTags c reg (some "7") none [("b", "2")]).2 = none ∧
     (Registry.UpdateTags c reg (some "7") none [("b", "2")]).1.recordByAlias "gold" =
        some { gold with Tags := [("b", "2")] }) := by
  refine ⟨fun c reg alias_ tags => rfl, ?_⟩
  decide

end asset

end Aihash



